import Mathlib

/-!
Verification of the inode reference cache in `fuse_inode.c` (bcachefs-tools
FUSE layer).  The C module keeps an rhashtable of `struct bf_inode` entries
keyed by a 64-bit inode number, each holding a `uint64_t open_count` and an
`unlinked` flag, with every operation serialized under one global mutex.
Since each exported function holds the mutex for its whole body, the module's
behaviour is exactly a sequence of atomic table transformations, which we
embed below as pure functions on an association-list model of the table.
-/

namespace BcachefsFuse

/-- Cardinality of the 64-bit unsigned integers.  `open_count` in the C
source is a `uint64_t`, so the increment `++bfi->open_count` wraps modulo
this constant. -/
def U64_SIZE : Nat := 2 ^ 64

/-- Shallow embedding of `struct bf_inode`: the cached open/unlink state of
one inode identifier (the `rhash_head` intrusive hook has no semantic
content and is omitted). -/
structure BfInode where
  key : Nat
  open_count : Nat
  unlinked : Bool
deriving DecidableEq, Repr

/-- The rhashtable keyed by `BfInode.key`, modelled as a list of entries.
The real table holds at most one entry per key; all reachable states of the
model satisfy the same property (`reachable_nodupKeys` below). -/
abbrev Table := List BfInode

/-- The only error the cache surfaces: `ERR_PTR(-ENOMEM)` from a failed
`calloc` in `__bf_inode_get`. -/
inductive BfErr where
  | enomem
deriving DecidableEq, Repr

/-- `rhashtable_lookup_fast`: find the entry with the given key. -/
def lookup : Table → Nat → Option BfInode
  | [], _ => none
  | e :: rest, ino => if e.key = ino then some e else lookup rest ino

/-- Mutate, in place, the (first) entry with the given key, if present.
This models writing through the `struct bf_inode *` returned by a lookup. -/
def updateEntry : Table → Nat → (BfInode → BfInode) → Table
  | [], _, _ => []
  | e :: rest, ino, f =>
    if e.key = ino then f e :: rest else e :: updateEntry rest ino f

/-- `rhashtable_remove_fast` followed by `free`: delete the (first) entry
with the given key. -/
def removeKey : Table → Nat → Table
  | [], _ => []
  | e :: rest, ino => if e.key = ino then rest else e :: removeKey rest ino

/-- `__bf_inode_get`: look the key up and return the entry, creating a fresh
one (`open_count = 0`, `unlinked = false` — `calloc` zeroes the struct) when
absent.  `allocOk` models whether that `calloc` succeeds; on failure the
function returns `ERR_PTR(-ENOMEM)` having left the table untouched.  The
`BUG_ON(ret == EEXIST)` after the insert cannot fire, because the insert
only happens when the lookup found nothing. -/
def __bf_inode_get (t : Table) (ino : Nat) (allocOk : Bool) :
    Except BfErr (Table × BfInode) :=
  match lookup t ino with
  | some bfi => .ok (t, bfi)
  | none =>
    if allocOk then
      .ok (t ++ [⟨ino, 0, false⟩], ⟨ino, 0, false⟩)
    else
      .error .enomem

/-- `bf_inode_get`: `__bf_inode_get` under the global mutex (the mutex is
the identity in this sequential model; see the module comment). -/
def bf_inode_get (t : Table) (ino : Nat) (allocOk : Bool) :
    Except BfErr (Table × BfInode) :=
  __bf_inode_get t ino allocOk

/-- The `++bfi->open_count` of `bf_inode_get_ref`, wrapping as a `uint64_t`
does. -/
def bumpRef (e : BfInode) : BfInode :=
  { e with open_count := (e.open_count + 1) % U64_SIZE }

/-- The `bfi->unlinked = true` write of `bf_inode_unlink`. -/
def setUnlinked (e : BfInode) : BfInode :=
  { e with unlinked := true }

/-- The `bfi->open_count -= release_count` write of `bf_inode_put`.  The
`BUG_ON(bfi->open_count < release_count)` guard makes the `uint64_t`
subtraction exact, so truncated `Nat` subtraction models it faithfully. -/
def dropRefs (n : Nat) (e : BfInode) : BfInode :=
  { e with open_count := e.open_count - n }

/-- `bf_inode_get_ref`: `__bf_inode_get`, then increment `open_count` of the
found (or freshly created) entry; an `-ENOMEM` from the inner get is
returned as is, with no increment. -/
def bf_inode_get_ref (t : Table) (ino : Nat) (allocOk : Bool) :
    Except BfErr (Table × BfInode) :=
  match __bf_inode_get t ino allocOk with
  | .error e => .error e
  | .ok (t', bfi) => .ok (updateEntry t' ino bumpRef, bumpRef bfi)

/-- `bf_inode_unlink`: set `unlinked := true` on the entry if it exists
(no entry is ever created), and return `bfi == NULL`, i.e. `true` exactly
when no entry was found. -/
def bf_inode_unlink (t : Table) (ino : Nat) : Table × Bool :=
  match lookup t ino with
  | some _ => (updateEntry t ino setUnlinked, false)
  | none => (t, true)

/-- `bf_inode_put`: release `release_count` references.  The C function
calls `__bf_inode_get` (which creates a zero-count entry when the key is
absent), then `BUG_ON(IS_ERR(bfi))` and `BUG_ON(bfi->open_count <
release_count)` — both modelled as the fatal result `none`, since `BUG_ON`
aborts the process.  (`BUG_ON(!bfi)` can never fire: `__bf_inode_get`
returns either a valid entry or an error pointer.)  Otherwise the count is
decremented; if it stays positive the entry remains and `false` is
returned, else the entry is removed and freed and its final `unlinked` flag
is returned. -/
def bf_inode_put (t : Table) (ino : Nat) (release_count : Nat)
    (allocOk : Bool) : Option (Table × Bool) :=
  match __bf_inode_get t ino allocOk with
  | .error _ => none
  | .ok (t', bfi) =>
    if bfi.open_count < release_count then
      none
    else if 0 < bfi.open_count - release_count then
      some (updateEntry t' ino (dropRefs release_count), false)
    else
      some (removeKey t' ino, bfi.unlinked)

/-- One call into the cache, for stating invariants over arbitrary
operation sequences. -/
inductive Op where
  | get (ino : Nat)
  | getRef (ino : Nat)
  | unlink (ino : Nat)
  | put (ino n : Nat)
deriving DecidableEq, Repr

/-- Effect of one operation on the table.  `none` is a fatal assertion
(process abort) inside `bf_inode_put`; an allocation failure in
`get`/`get_ref` is returned to the caller as `-ENOMEM` and leaves the table
unchanged, so it yields `some t`. -/
def stepT (t : Table) (op : Op) (allocOk : Bool) : Option Table :=
  match op with
  | .get ino =>
    match bf_inode_get t ino allocOk with
    | .ok (t', _) => some t'
    | .error _ => some t
  | .getRef ino =>
    match bf_inode_get_ref t ino allocOk with
    | .ok (t', _) => some t'
    | .error _ => some t
  | .unlink ino => some (bf_inode_unlink t ino).1
  | .put ino n => (bf_inode_put t ino n allocOk).map Prod.fst

/-- Table states reachable from the empty table (`bf_inode_init`) by
non-fatal operations. -/
inductive Reachable : Table → Prop where
  | init : Reachable []
  | step {t t' : Table} {op : Op} {aOk : Bool} :
      Reachable t → stepT t op aOk = some t' → Reachable t'

/-! ### Basic lemmas about the table operations -/

/-- A key-preserving in-place update: both updates the C code performs
(`++open_count`, `unlinked = true`, `open_count -= n`) leave `key` alone. -/
def KeyFixed (f : BfInode → BfInode) : Prop :=
  ∀ x, (f x).key = x.key

theorem keyFixed_bumpRef : KeyFixed bumpRef := fun _ => rfl

theorem keyFixed_setUnlinked : KeyFixed setUnlinked := fun _ => rfl

theorem keyFixed_dropRefs (n : Nat) : KeyFixed (dropRefs n) := fun _ => rfl

theorem lookup_append_some {t : Table} {k : Nat} {e : BfInode}
    (h : lookup t k = some e) (l : Table) : lookup (t ++ l) k = some e := by
  induction t with
  | nil => simp [lookup] at h
  | cons x rest ih =>
    simp only [lookup, List.cons_append] at h ⊢
    split at h
    · simp [*] at h ⊢
    · simp only [*, if_neg, not_false_iff]
      exact ih h

theorem lookup_append_none {t : Table} {k : Nat}
    (h : lookup t k = none) (l : Table) : lookup (t ++ l) k = lookup l k := by
  induction t with
  | nil => simp
  | cons x rest ih =>
    simp only [lookup, List.cons_append] at h ⊢
    split at h
    · exact absurd h (by simp)
    · simp only [*, if_neg, not_false_iff]
      exact ih h

theorem lookup_updateEntry_self {t : Table} {k : Nat} {e : BfInode}
    {f : BfInode → BfInode} (hf : KeyFixed f) (h : lookup t k = some e) :
    lookup (updateEntry t k f) k = some (f e) := by
  induction t with
  | nil => simp [lookup] at h
  | cons x rest ih =>
    simp only [lookup, updateEntry] at h ⊢
    by_cases hx : x.key = k
    · rw [if_pos hx] at h
      cases h
      rw [if_pos hx]
      simp [lookup, hf e, hx]
    · rw [if_neg hx] at h
      rw [if_neg hx]
      simp only [lookup, if_neg hx]
      exact ih h

theorem lookup_updateEntry_ne {t : Table} {k k' : Nat} {f : BfInode → BfInode}
    (hf : KeyFixed f) (hne : k' ≠ k) :
    lookup (updateEntry t k f) k' = lookup t k' := by
  induction t with
  | nil => rfl
  | cons x rest ih =>
    simp only [updateEntry, lookup]
    by_cases hx : x.key = k
    · simp only [if_pos hx, lookup, hf x, hx, if_neg (Ne.symm hne)]
    · simp only [if_neg hx, lookup, ih]

theorem lookup_removeKey_ne {t : Table} {k k' : Nat} (hne : k' ≠ k) :
    lookup (removeKey t k) k' = lookup t k' := by
  induction t with
  | nil => rfl
  | cons x rest ih =>
    simp only [removeKey]
    by_cases hx : x.key = k
    · rw [if_pos hx]
      simp only [lookup, hx, if_neg (Ne.symm hne)]
    · rw [if_neg hx]
      simp only [lookup, ih]

theorem lookup_eq_none_iff {t : Table} {k : Nat} :
    lookup t k = none ↔ k ∉ t.map BfInode.key := by
  induction t with
  | nil => simp [lookup]
  | cons x rest ih =>
    simp only [lookup, List.map_cons, List.mem_cons]
    by_cases hx : x.key = k
    · simp [hx]
    · simp [hx, Ne.symm hx, ih]

theorem lookup_removeKey_self {t : Table} {k : Nat}
    (h : (t.map BfInode.key).Nodup) : lookup (removeKey t k) k = none := by
  induction t with
  | nil => rfl
  | cons x rest ih =>
    simp only [List.map_cons, List.nodup_cons] at h
    simp only [removeKey]
    by_cases hx : x.key = k
    · exact lookup_eq_none_iff.2 (by simpa [hx] using h.1)
    · simp only [if_neg hx, lookup, if_neg hx]
      exact ih h.2

theorem updateEntry_append_singleton (x : BfInode) (f : BfInode → BfInode)
    {t : Table} {k : Nat} (h : lookup t k = none) (hx : x.key = k) :
    updateEntry (t ++ [x]) k f = t ++ [f x] := by
  induction t with
  | nil => simp [updateEntry, hx]
  | cons y rest ih =>
    simp only [lookup] at h
    split at h
    · exact absurd h (by simp)
    · simp only [List.cons_append, updateEntry, if_neg (by assumption)]
      simpa using ih h

theorem removeKey_append_singleton (x : BfInode) {t : Table} {k : Nat}
    (h : lookup t k = none) (hx : x.key = k) :
    removeKey (t ++ [x]) k = t := by
  induction t with
  | nil => simp [removeKey, hx]
  | cons y rest ih =>
    simp only [lookup] at h
    split at h
    · exact absurd h (by simp)
    · simp only [List.cons_append, removeKey, if_neg (by assumption)]
      simpa using ih h

theorem keys_updateEntry {t : Table} {k : Nat} {f : BfInode → BfInode}
    (hf : KeyFixed f) :
    (updateEntry t k f).map BfInode.key = t.map BfInode.key := by
  induction t with
  | nil => rfl
  | cons x rest ih =>
    simp only [updateEntry]
    by_cases hx : x.key = k
    · rw [if_pos hx]
      simp [hf x]
    · rw [if_neg hx]
      simp [ih]

theorem removeKey_sublist (t : Table) (k : Nat) :
    List.Sublist (removeKey t k) t := by
  induction t with
  | nil => simp [removeKey]
  | cons x rest ih =>
    simp only [removeKey]
    by_cases hx : x.key = k
    · rw [if_pos hx]
      exact List.sublist_cons_self x rest
    · rw [if_neg hx]
      exact ih.cons₂ x

theorem keys_removeKey_sublist (t : Table) (k : Nat) :
    List.Sublist ((removeKey t k).map BfInode.key) (t.map BfInode.key) :=
  (removeKey_sublist t k).map BfInode.key

theorem one_mod_u64 : 1 % U64_SIZE = 1 :=
  Nat.mod_eq_of_lt (by norm_num [U64_SIZE])

/-! ### Outcome characterizations of the four operations -/

theorem get_found {t : Table} {ino : Nat} {aOk : Bool} {e : BfInode}
    (h : lookup t ino = some e) : __bf_inode_get t ino aOk = .ok (t, e) := by
  simp [__bf_inode_get, h]

theorem get_created {t : Table} {ino : Nat} (h : lookup t ino = none) :
    __bf_inode_get t ino true
      = .ok (t ++ [⟨ino, 0, false⟩], ⟨ino, 0, false⟩) := by
  simp [__bf_inode_get, h]

theorem get_enomem {t : Table} {ino : Nat} (h : lookup t ino = none) :
    __bf_inode_get t ino false = .error .enomem := by
  simp [__bf_inode_get, h]

theorem getRef_found {t : Table} {ino : Nat} {aOk : Bool} {e : BfInode}
    (h : lookup t ino = some e) :
    bf_inode_get_ref t ino aOk
      = .ok (updateEntry t ino bumpRef, bumpRef e) := by
  simp [bf_inode_get_ref, get_found h]

theorem getRef_created {t : Table} {ino : Nat} (h : lookup t ino = none) :
    bf_inode_get_ref t ino true
      = .ok (t ++ [⟨ino, 1, false⟩], ⟨ino, 1, false⟩) := by
  have hb : bumpRef ⟨ino, 0, false⟩ = ⟨ino, 1, false⟩ := by
    simp [bumpRef, one_mod_u64]
  simp [bf_inode_get_ref, get_created h,
    updateEntry_append_singleton ⟨ino, 0, false⟩ bumpRef h rfl, hb]

theorem getRef_enomem {t : Table} {ino : Nat} (h : lookup t ino = none) :
    bf_inode_get_ref t ino false = .error .enomem := by
  simp [bf_inode_get_ref, get_enomem h]

theorem unlink_found {t : Table} {ino : Nat} {e : BfInode}
    (h : lookup t ino = some e) :
    bf_inode_unlink t ino = (updateEntry t ino setUnlinked, false) := by
  simp [bf_inode_unlink, h]

theorem unlink_missing {t : Table} {ino : Nat} (h : lookup t ino = none) :
    bf_inode_unlink t ino = (t, true) := by
  simp [bf_inode_unlink, h]

theorem put_stays {t : Table} {ino n : Nat} {e : BfInode} {aOk : Bool}
    (h : lookup t ino = some e) (hn : n < e.open_count) :
    bf_inode_put t ino n aOk
      = some (updateEntry t ino (dropRefs n), false) := by
  have hg : __bf_inode_get t ino aOk = .ok (t, e) := get_found h
  simp only [bf_inode_put, hg]
  rw [if_neg (by omega), if_pos (by omega)]

theorem put_drains {t : Table} {ino n : Nat} {e : BfInode} {aOk : Bool}
    (h : lookup t ino = some e) (hn : e.open_count = n) :
    bf_inode_put t ino n aOk = some (removeKey t ino, e.unlinked) := by
  have hg : __bf_inode_get t ino aOk = .ok (t, e) := get_found h
  simp only [bf_inode_put, hg]
  rw [if_neg (by omega), if_neg (by omega)]

theorem put_under {t : Table} {ino n : Nat} {e : BfInode} {aOk : Bool}
    (h : lookup t ino = some e) (hn : e.open_count < n) :
    bf_inode_put t ino n aOk = none := by
  have hg : __bf_inode_get t ino aOk = .ok (t, e) := get_found h
  simp only [bf_inode_put, hg]
  rw [if_pos hn]

theorem put_missing_pos {t : Table} {ino n : Nat} {aOk : Bool}
    (h : lookup t ino = none) (hn : 0 < n) :
    bf_inode_put t ino n aOk = none := by
  cases aOk with
  | false => simp [bf_inode_put, get_enomem h]
  | true =>
    simp only [bf_inode_put, get_created h]
    rw [if_pos (by simpa using hn)]

theorem put_missing_zero {t : Table} {ino : Nat} (h : lookup t ino = none) :
    bf_inode_put t ino 0 true = some (t, false) := by
  simp only [bf_inode_put, get_created h]
  rw [if_neg (by omega), if_neg (by omega),
    removeKey_append_singleton ⟨ino, 0, false⟩ h rfl]

/-! ### Key uniqueness is preserved by every operation -/

theorem nodupKeys_append_fresh {t : Table} {x : BfInode}
    (h : lookup t x.key = none) (hn : (t.map BfInode.key).Nodup) :
    ((t ++ [x]).map BfInode.key).Nodup := by
  rw [List.map_append]
  refine List.Nodup.append hn (by simp) ?_
  intro a ha hb
  simp only [List.map_cons, List.map_nil, List.mem_singleton] at hb
  subst hb
  exact lookup_eq_none_iff.1 h ha

theorem stepT_nodupKeys {t t' : Table} {op : Op} {aOk : Bool}
    (hn : (t.map BfInode.key).Nodup) (hs : stepT t op aOk = some t') :
    (t'.map BfInode.key).Nodup := by
  cases op with
  | get ino =>
    simp only [stepT, bf_inode_get] at hs
    cases hlk : lookup t ino with
    | some e =>
      rw [get_found hlk] at hs
      cases hs
      exact hn
    | none =>
      cases aOk with
      | false =>
        rw [get_enomem hlk] at hs
        cases hs
        exact hn
      | true =>
        rw [get_created hlk] at hs
        cases hs
        exact nodupKeys_append_fresh hlk hn
  | getRef ino =>
    simp only [stepT] at hs
    cases hlk : lookup t ino with
    | some e =>
      rw [getRef_found hlk] at hs
      cases hs
      rw [keys_updateEntry keyFixed_bumpRef]
      exact hn
    | none =>
      cases aOk with
      | false =>
        rw [getRef_enomem hlk] at hs
        cases hs
        exact hn
      | true =>
        rw [getRef_created hlk] at hs
        cases hs
        exact nodupKeys_append_fresh hlk hn
  | unlink ino =>
    simp only [stepT] at hs
    cases hlk : lookup t ino with
    | some e =>
      rw [unlink_found hlk] at hs
      cases hs
      rw [keys_updateEntry keyFixed_setUnlinked]
      exact hn
    | none =>
      rw [unlink_missing hlk] at hs
      cases hs
      exact hn
  | put ino n =>
    simp only [stepT] at hs
    cases hlk : lookup t ino with
    | some e =>
      rcases Nat.lt_trichotomy n e.open_count with hc | hc | hc
      · rw [put_stays hlk hc] at hs
        cases hs
        rw [keys_updateEntry (keyFixed_dropRefs n)]
        exact hn
      · rw [put_drains hlk hc.symm] at hs
        cases hs
        exact (keys_removeKey_sublist t ino).nodup hn
      · rw [put_under hlk hc] at hs
        cases hs
    | none =>
      cases n with
      | zero =>
        cases aOk with
        | false =>
          simp [bf_inode_put, get_enomem hlk] at hs
        | true =>
          rw [put_missing_zero hlk] at hs
          cases hs
          exact hn
      | succ m =>
        rw [put_missing_pos hlk (Nat.succ_pos m)] at hs
        cases hs

theorem reachable_nodupKeys {t : Table} (h : Reachable t) :
    (t.map BfInode.key).Nodup := by
  induction h with
  | init => simp
  | step _ hs ih => exact stepT_nodupKeys ih hs

theorem updateEntry_eq_of_none {t : Table} {ino : Nat}
    {f : BfInode → BfInode} (h : lookup t ino = none) :
    updateEntry t ino f = t := by
  induction t with
  | nil => rfl
  | cons x rest ih =>
    simp only [lookup] at h
    split at h
    · exact absurd h (by simp)
    · simp only [updateEntry, if_neg (by assumption)]
      rw [ih h]

/-- Exhaustive description of the possible after-states of one successful
operation: unchanged table, a freshly created entry appended, an in-place
field update of an existing entry, or the removal performed by a draining
`put`. -/
theorem stepT_shape {t t' : Table} {op : Op} {aOk : Bool}
    (hs : stepT t op aOk = some t') :
    t' = t
    ∨ (∃ ino c, lookup t ino = none ∧ t' = t ++ [⟨ino, c, false⟩]
         ∧ (op = Op.get ino ∨ op = Op.getRef ino))
    ∨ (∃ ino e, lookup t ino = some e
         ∧ ((op = Op.getRef ino ∧ t' = updateEntry t ino bumpRef)
           ∨ (op = Op.unlink ino ∧ t' = updateEntry t ino setUnlinked)
           ∨ (∃ n, op = Op.put ino n ∧ n < e.open_count
               ∧ t' = updateEntry t ino (dropRefs n))
           ∨ (op = Op.put ino e.open_count ∧ t' = removeKey t ino))) := by
  cases op with
  | get ino =>
    simp only [stepT, bf_inode_get] at hs
    cases hlk : lookup t ino with
    | some e =>
      rw [get_found hlk] at hs
      cases hs
      exact Or.inl rfl
    | none =>
      cases aOk with
      | false =>
        rw [get_enomem hlk] at hs
        cases hs
        exact Or.inl rfl
      | true =>
        rw [get_created hlk] at hs
        cases hs
        exact Or.inr (Or.inl ⟨ino, 0, hlk, rfl, Or.inl rfl⟩)
  | getRef ino =>
    simp only [stepT] at hs
    cases hlk : lookup t ino with
    | some e =>
      rw [getRef_found hlk] at hs
      cases hs
      exact Or.inr (Or.inr ⟨ino, e, hlk, Or.inl ⟨rfl, rfl⟩⟩)
    | none =>
      cases aOk with
      | false =>
        rw [getRef_enomem hlk] at hs
        cases hs
        exact Or.inl rfl
      | true =>
        rw [getRef_created hlk] at hs
        cases hs
        exact Or.inr (Or.inl ⟨ino, 1, hlk, rfl, Or.inr rfl⟩)
  | unlink ino =>
    simp only [stepT] at hs
    cases hlk : lookup t ino with
    | some e =>
      rw [unlink_found hlk] at hs
      cases hs
      exact Or.inr (Or.inr ⟨ino, e, hlk, Or.inr (Or.inl ⟨rfl, rfl⟩)⟩)
    | none =>
      rw [unlink_missing hlk] at hs
      cases hs
      exact Or.inl rfl
  | put ino n =>
    simp only [stepT] at hs
    cases hlk : lookup t ino with
    | some e =>
      rcases Nat.lt_trichotomy n e.open_count with hc | hc | hc
      · rw [put_stays hlk hc] at hs
        cases hs
        exact Or.inr (Or.inr ⟨ino, e, hlk,
          Or.inr (Or.inr (Or.inl ⟨n, rfl, hc, rfl⟩))⟩)
      · rw [put_drains hlk hc.symm] at hs
        cases hs
        exact Or.inr (Or.inr ⟨ino, e, hlk,
          Or.inr (Or.inr (Or.inr ⟨by rw [hc], rfl⟩))⟩)
      · rw [put_under hlk hc] at hs
        cases hs
    | none =>
      cases n with
      | zero =>
        cases aOk with
        | false => simp [bf_inode_put, get_enomem hlk] at hs
        | true =>
          rw [put_missing_zero hlk] at hs
          cases hs
          exact Or.inl rfl
      | succ m =>
        rw [put_missing_pos hlk (Nat.succ_pos m)] at hs
        cases hs

/-! ### Claim C3 -/

/-- C3: `bf_inode_unlink` returns `true` exactly when no entry for the id
exists, and it never creates an entry — on a missing id the table is
returned unchanged. -/
theorem unlink_true_iff_absent (t : Table) (ino : Nat) :
    ((bf_inode_unlink t ino).2 = true ↔ lookup t ino = none)
    ∧ (lookup t ino = none → (bf_inode_unlink t ino).1 = t) := by
  constructor
  · cases hlk : lookup t ino with
    | some e => simp [unlink_found hlk, hlk]
    | none => simp [unlink_missing hlk]
  · intro h
    simp [unlink_missing h]

/-- Witness: `mark_unlinked` on id 99 with no prior operations returns
`true` and leaves the empty table unchanged. -/
theorem unlink_true_iff_absent_witness :
    (bf_inode_unlink [] 99).1 = [] ∧ (bf_inode_unlink [] 99).2 = true :=
  ⟨(unlink_true_iff_absent [] 99).2 (by decide),
   ((unlink_true_iff_absent [] 99).1).2 (by decide)⟩

/-! ### Claim C2 -/

/-- C2 as stated is false: `put(id, 0)` on an id with no entry is not
fatal — it returns normally with `false` (the create-if-absent path makes a
zero-count entry, `BUG_ON(0 < 0)` does not fire, and the entry is removed
again). -/
theorem put_missing_not_always_fatal_cex :
    lookup ([] : Table) 0 = none
    ∧ bf_inode_put [] 0 0 true = some ([], false) := by
  decide

/-- C2 amended: `bf_inode_put` is fatal (a `BUG_ON` aborts the process,
so the call never returns, normally or with an error) whenever the id has
no entry and `release_count > 0`, or the entry's `open_count` is less than
`release_count`. -/
theorem put_contract_violation_fatal (t : Table) (ino n : Nat) (aOk : Bool)
    (h : (lookup t ino = none ∧ 0 < n)
        ∨ (∃ e, lookup t ino = some e ∧ e.open_count < n)) :
    bf_inode_put t ino n aOk = none := by
  rcases h with ⟨hm, hn⟩ | ⟨e, he, hn⟩
  · exact put_missing_pos hm hn
  · exact put_under he hn

/-- Witness: `put(5, 1)` on an id with no entry aborts. -/
theorem put_contract_violation_fatal_witness :
    bf_inode_put [] 5 1 true = none :=
  put_contract_violation_fatal [] 5 1 true (Or.inl ⟨by decide, by decide⟩)

/-! ### Claim C4 -/

/-- C4: under `put`'s contract (entry present with `open_count ≥ n`):
draining the count to 0 removes the entry from the table and returns the
entry's final `unlinked` flag — in particular `false` when no
`mark_unlinked` preceded — while a partial release keeps the entry with
the decremented count and returns `false`. -/
theorem put_drain_and_decrement (t : Table) (ino n : Nat) (e : BfInode)
    (aOk : Bool) (hnd : (t.map BfInode.key).Nodup)
    (he : lookup t ino = some e) (_hn : n ≤ e.open_count) :
    (e.open_count = n →
       bf_inode_put t ino n aOk = some (removeKey t ino, e.unlinked)
       ∧ lookup (removeKey t ino) ino = none)
    ∧ (n < e.open_count →
       bf_inode_put t ino n aOk = some (updateEntry t ino (dropRefs n), false)
       ∧ lookup (updateEntry t ino (dropRefs n)) ino = some (dropRefs n e))
    ∧ (e.open_count = n → e.unlinked = false →
       bf_inode_put t ino n aOk = some (removeKey t ino, false)) := by
  refine ⟨fun hd => ⟨put_drains he hd, lookup_removeKey_self hnd⟩,
    fun hlt => ⟨put_stays he hlt,
      lookup_updateEntry_self (keyFixed_dropRefs n) he⟩,
    fun hd hu => ?_⟩
  rw [put_drains he hd, hu]

/-- Witness: draining the single reference on id 42, never unlinked,
destroys the entry and returns `false`. -/
theorem put_drain_and_decrement_witness :
    bf_inode_put [⟨42, 2, false⟩] 42 2 true = some ([], false) := by
  have h := (put_drain_and_decrement [⟨42, 2, false⟩] 42 2 ⟨42, 2, false⟩
    true (by decide) (by decide) (by decide)).1 rfl
  simpa [removeKey] using h.1

/-! ### Claim C7 -/

/-- C7: `bf_inode_get_ref` fails exactly when the id has no entry and the
allocation fails, the failure is `-ENOMEM`, and a failing call leaves the
table exactly as it was: no `open_count` is incremented and no partially
constructed entry remains. -/
theorem get_ref_enomem_no_mutation (t : Table) (ino : Nat) (aOk : Bool) :
    (bf_inode_get_ref t ino aOk = .error .enomem
       ↔ (lookup t ino = none ∧ aOk = false))
    ∧ (bf_inode_get_ref t ino aOk = .error .enomem →
       stepT t (Op.getRef ino) aOk = some t) := by
  have hc : bf_inode_get_ref t ino aOk = .error .enomem
      ↔ (lookup t ino = none ∧ aOk = false) := by
    constructor
    · intro h
      cases hlk : lookup t ino with
      | some e => rw [getRef_found hlk] at h; cases h
      | none =>
        cases aOk with
        | false => exact ⟨rfl, rfl⟩
        | true => rw [getRef_created hlk] at h; cases h
    · rintro ⟨hlk, rfl⟩
      exact getRef_enomem hlk
  refine ⟨hc, fun h => ?_⟩
  simp [stepT, h]

/-- Witness: `get_ref(0)` on the empty table with a failing allocation
reports `-ENOMEM` and mutates nothing. -/
theorem get_ref_enomem_no_mutation_witness :
    bf_inode_get_ref [] 0 false = .error .enomem
    ∧ stepT [] (Op.getRef 0) false = some [] := by
  have h := get_ref_enomem_no_mutation [] 0 false
  have he := h.1.2 ⟨by decide, rfl⟩
  exact ⟨he, h.2 he⟩

/-! ### Claim C6 -/

/-- Both halves of the per-step monotonicity of the `unlinked` flag, as a
relation between the tables before and after a step. -/
def UnlinkedMonoStep (t t' : Table) (k : Nat) : Prop :=
  (∀ e e', lookup t k = some e → lookup t' k = some e' →
     e.unlinked = true → e'.unlinked = true)
  ∧ (lookup t k = none → ∀ e', lookup t' k = some e' → e'.unlinked = false)

theorem unlinkedMono_refl (t : Table) (k : Nat) : UnlinkedMonoStep t t k := by
  constructor
  · intro e e' he he' hu
    rw [he] at he'
    cases he'
    exact hu
  · intro hn e' he'
    rw [hn] at he'
    cases he'

theorem unlinkedMono_append (t : Table) (x : BfInode) (k : Nat)
    (hxu : x.unlinked = false) : UnlinkedMonoStep t (t ++ [x]) k := by
  constructor
  · intro e e' he he' hu
    rw [lookup_append_some he] at he'
    cases he'
    exact hu
  · intro hn e' he'
    rw [lookup_append_none hn] at he'
    simp only [lookup] at he'
    by_cases hk : x.key = k
    · rw [if_pos hk] at he'
      cases he'
      exact hxu
    · rw [if_neg hk] at he'
      cases he'

theorem unlinkedMono_update (t : Table) (ino k : Nat) (f : BfInode → BfInode)
    (hf : KeyFixed f)
    (hmono : ∀ x, x.unlinked = true → (f x).unlinked = true) :
    UnlinkedMonoStep t (updateEntry t ino f) k := by
  constructor
  · intro e e' he he' hu
    by_cases hk : k = ino
    · subst hk
      rw [lookup_updateEntry_self hf he] at he'
      cases he'
      exact hmono e hu
    · rw [lookup_updateEntry_ne hf hk] at he'
      rw [he] at he'
      cases he'
      exact hu
  · intro hn e' he'
    by_cases hk : k = ino
    · subst hk
      rw [updateEntry_eq_of_none hn, hn] at he'
      cases he'
    · rw [lookup_updateEntry_ne hf hk, hn] at he'
      cases he'

theorem unlinkedMono_remove (t : Table) (ino k : Nat)
    (hnd : (t.map BfInode.key).Nodup) :
    UnlinkedMonoStep t (removeKey t ino) k := by
  constructor
  · intro e e' he he' hu
    by_cases hk : k = ino
    · subst hk
      rw [lookup_removeKey_self hnd] at he'
      cases he'
    · rw [lookup_removeKey_ne hk] at he'
      rw [he] at he'
      cases he'
      exact hu
  · intro hn e' he'
    by_cases hk : k = ino
    · subst hk
      rw [lookup_removeKey_self hnd] at he'
      cases he'
    · rw [lookup_removeKey_ne hk, hn] at he'
      cases he'

/-- C6: over any reachable state, a single successful operation never
resets an entry's `unlinked` flag from `true` to `false` while the entry
survives the step, and any entry the step creates starts with
`unlinked = false` (so a key recreated after destruction starts fresh). -/
theorem unlinked_monotone (t t' : Table) (op : Op) (aOk : Bool) (k : Nat)
    (hr : Reachable t) (hs : stepT t op aOk = some t') :
    (∀ e e', lookup t k = some e → lookup t' k = some e' →
       e.unlinked = true → e'.unlinked = true)
    ∧ (lookup t k = none → ∀ e', lookup t' k = some e' →
       e'.unlinked = false) := by
  have hnd := reachable_nodupKeys hr
  suffices h : UnlinkedMonoStep t t' k from h
  rcases stepT_shape hs with rfl | ⟨ino, c, _, rfl, _⟩ |
      ⟨ino, e, _, ⟨_, rfl⟩ | ⟨_, rfl⟩ | ⟨n, _, _, rfl⟩ | ⟨_, rfl⟩⟩
  · exact unlinkedMono_refl _ k
  · exact unlinkedMono_append _ _ k rfl
  · exact unlinkedMono_update _ ino k bumpRef keyFixed_bumpRef
      (fun x hx => hx)
  · exact unlinkedMono_update _ ino k setUnlinked keyFixed_setUnlinked
      (fun x _ => rfl)
  · exact unlinkedMono_update _ ino k (dropRefs n) (keyFixed_dropRefs n)
      (fun x hx => hx)
  · exact unlinkedMono_remove _ ino k hnd

/-- Witness: a partial `put` on an unlinked open entry keeps the flag set,
and a freshly created entry starts with the flag clear. -/
theorem unlinked_monotone_witness :
    ((⟨5, 1, true⟩ : BfInode).unlinked = true)
    ∧ ((⟨9, 1, false⟩ : BfInode).unlinked = false) := by
  have s1 : stepT [] (Op.getRef 5) true = some [⟨5, 1, false⟩] := by decide
  have s2 : stepT [⟨5, 1, false⟩] (Op.getRef 5) true
      = some [⟨5, 2, false⟩] := by decide
  have s3 : stepT [⟨5, 2, false⟩] (Op.unlink 5) true
      = some [⟨5, 2, true⟩] := by decide
  have hr : Reachable [⟨5, 2, true⟩] :=
    Reachable.step (Reachable.step (Reachable.step Reachable.init s1) s2) s3
  have s4 : stepT [⟨5, 2, true⟩] (Op.put 5 1) true
      = some [⟨5, 1, true⟩] := by decide
  have h1 := (unlinked_monotone [⟨5, 2, true⟩] [⟨5, 1, true⟩]
    (Op.put 5 1) true 5 hr s4).1 ⟨5, 2, true⟩ ⟨5, 1, true⟩
    (by decide) (by decide) rfl
  have s5 : stepT [] (Op.getRef 9) true = some [⟨9, 1, false⟩] := by decide
  have h2 := (unlinked_monotone [] [⟨9, 1, false⟩]
    (Op.getRef 9) true 9 Reachable.init s5).2 (by decide)
    ⟨9, 1, false⟩ (by decide)
  exact ⟨h1, h2⟩

/-! ### Claim C9 -/

/-- Entries survive any successful operation that is not a `put` on their
id: no other operation removes entries. -/
theorem lookup_survives_non_put (t t' : Table) (op : Op) (aOk : Bool)
    (k : Nat) (hput : ∀ m, op ≠ Op.put k m)
    (hs : stepT t op aOk = some t') (h : lookup t k ≠ none) :
    lookup t' k ≠ none := by
  obtain ⟨e, he⟩ : ∃ e, lookup t k = some e := by
    cases hl : lookup t k with
    | none => exact absurd hl h
    | some e => exact ⟨_, rfl⟩
  rcases stepT_shape hs with rfl | ⟨ino, c, hno, rfl, hop⟩ |
      ⟨ino, e₂, he₂, ⟨hop, rfl⟩ | ⟨hop, rfl⟩ | ⟨n, hop, hlt, rfl⟩ | ⟨hop, rfl⟩⟩
  · exact h
  · rw [lookup_append_some he]
    simp
  · by_cases hk : k = ino
    · subst hk
      rw [lookup_updateEntry_self keyFixed_bumpRef he]
      simp
    · rw [lookup_updateEntry_ne keyFixed_bumpRef hk, he]
      simp
  · by_cases hk : k = ino
    · subst hk
      rw [lookup_updateEntry_self keyFixed_setUnlinked he]
      simp
    · rw [lookup_updateEntry_ne keyFixed_setUnlinked hk, he]
      simp
  · by_cases hk : k = ino
    · subst hk
      rw [lookup_updateEntry_self (keyFixed_dropRefs n) he]
      simp
    · rw [lookup_updateEntry_ne (keyFixed_dropRefs n) hk, he]
      simp
  · have hk : k ≠ ino := by
      rintro rfl
      exact hput e₂.open_count hop
    rw [lookup_removeKey_ne hk, he]
    simp

/-- C9: a successful `bf_inode_get` on an unseen id leaves an entry with
`open_count = 0` in the table; no operation other than a `put` on that id
ever removes an entry, so the zero-count entry persists, and a subsequent
`bf_inode_unlink` then returns `false` — the deferred-deletion signal —
even though no open handles exist for the id. -/
theorem get_leaves_zero_count_entry (t : Table) (ino : Nat)
    (h : lookup t ino = none) :
    bf_inode_get t ino true = .ok (t ++ [⟨ino, 0, false⟩], ⟨ino, 0, false⟩)
    ∧ lookup (t ++ [⟨ino, 0, false⟩]) ino = some ⟨ino, 0, false⟩
    ∧ (bf_inode_unlink (t ++ [⟨ino, 0, false⟩]) ino).2 = false
    ∧ (∀ t₁ t₂ op aOk k, (∀ m, op ≠ Op.put k m) →
       stepT t₁ op aOk = some t₂ → lookup t₁ k ≠ none →
       lookup t₂ k ≠ none) := by
  have hl : lookup (t ++ [⟨ino, 0, false⟩]) ino = some ⟨ino, 0, false⟩ := by
    rw [lookup_append_none h]
    simp [lookup]
  refine ⟨get_created h, hl, ?_,
    fun t₁ t₂ op aOk k => lookup_survives_non_put t₁ t₂ op aOk k⟩
  rw [unlink_found hl]

/-- Witness: `get(9)` on the empty table plants a zero-count entry and the
following `mark_unlinked(9)` answers `false` (defer) despite zero opens. -/
theorem get_leaves_zero_count_entry_witness :
    bf_inode_get [] 9 true = .ok ([⟨9, 0, false⟩], ⟨9, 0, false⟩)
    ∧ (bf_inode_unlink [⟨9, 0, false⟩] 9).2 = false := by
  have h := get_leaves_zero_count_entry [] 9 (by decide)
  exact ⟨h.1, h.2.2.1⟩

/-! ### Claim C5 -/

/-- C5: over reachable states, a single successful operation removes an
entry exactly when it is a `put` on that entry's id whose release count
equals the entry's `open_count` (so exactly when the `put` drives the
count to 0); no operation removes an entry it does not drain. -/
theorem removal_iff_put_drains (t t' : Table) (op : Op) (aOk : Bool)
    (hr : Reachable t) (hs : stepT t op aOk = some t')
    (k : Nat) (e : BfInode) (he : lookup t k = some e) :
    lookup t' k = none ↔ op = Op.put k e.open_count := by
  have hnd := reachable_nodupKeys hr
  have hrm : op = Op.put k e.open_count → lookup t' k = none := by
    rintro rfl
    simp only [stepT] at hs
    rw [put_drains he rfl] at hs
    have ht : removeKey t k = t' := by simpa using hs
    subst ht
    exact lookup_removeKey_self hnd
  rcases stepT_shape hs with rfl | ⟨ino, c, hno, rfl, hop⟩ |
      ⟨ino, e₂, he₂, ⟨hop, rfl⟩ | ⟨hop, rfl⟩ | ⟨n, hop, hlt, rfl⟩ | ⟨hop, rfl⟩⟩
  · exact ⟨fun hnone => absurd hnone (by rw [he]; simp), hrm⟩
  · exact ⟨fun hnone =>
      absurd hnone (by rw [lookup_append_some he]; simp), hrm⟩
  · refine ⟨fun hnone => absurd hnone ?_, hrm⟩
    by_cases hk : k = ino
    · subst hk
      rw [lookup_updateEntry_self keyFixed_bumpRef he]
      simp
    · rw [lookup_updateEntry_ne keyFixed_bumpRef hk, he]
      simp
  · refine ⟨fun hnone => absurd hnone ?_, hrm⟩
    by_cases hk : k = ino
    · subst hk
      rw [lookup_updateEntry_self keyFixed_setUnlinked he]
      simp
    · rw [lookup_updateEntry_ne keyFixed_setUnlinked hk, he]
      simp
  · refine ⟨fun hnone => absurd hnone ?_, hrm⟩
    by_cases hk : k = ino
    · subst hk
      rw [lookup_updateEntry_self (keyFixed_dropRefs n) he]
      simp
    · rw [lookup_updateEntry_ne (keyFixed_dropRefs n) hk, he]
      simp
  · by_cases hk : k = ino
    · subst hk
      rw [he] at he₂
      cases he₂
      exact ⟨fun _ => hop, fun _ => lookup_removeKey_self hnd⟩
    · refine ⟨fun hnone => absurd hnone ?_, hrm⟩
      rw [lookup_removeKey_ne hk, he]
      simp

/-- Witness: on reachable state `[⟨42, 1, false⟩]`, `put(42, 1)` removes
the entry, and the removal is equivalent to the release count matching
`open_count = 1`. -/
theorem removal_iff_put_drains_witness :
    lookup ([] : Table) 42 = none ↔ Op.put 42 1 = Op.put 42 1 := by
  have s1 : stepT [] (Op.getRef 42) true = some [⟨42, 1, false⟩] := by decide
  have hr : Reachable [⟨42, 1, false⟩] := Reachable.step Reachable.init s1
  have hs : stepT [⟨42, 1, false⟩] (Op.put 42 1) true = some [] := by decide
  exact removal_iff_put_drains [⟨42, 1, false⟩] [] (Op.put 42 1) true hr hs
    42 ⟨42, 1, false⟩ (by decide)

/-! ### Claim C10 -/

/-- C10: `put(id, 0)` on a missing id completes without hitting any
`BUG_ON`: the create-if-absent path makes an entry with `open_count = 0`,
the zero decrement leaves it at 0, and the entry is removed and freed at
once, so the call returns `false` and the table is exactly as before. -/
theorem put_zero_missing_creates_destroys (t : Table) (ino : Nat)
    (h : lookup t ino = none) :
    __bf_inode_get t ino true = .ok (t ++ [⟨ino, 0, false⟩], ⟨ino, 0, false⟩)
    ∧ bf_inode_put t ino 0 true = some (t, false) :=
  ⟨get_created h, put_missing_zero h⟩

/-- Witness: `put(7, 0)` on the empty table returns `false` and leaves the
table empty. -/
theorem put_zero_missing_creates_destroys_witness :
    bf_inode_put [] 7 0 true = some ([], false) :=
  (put_zero_missing_creates_destroys [] 7 (by decide)).2

/-! ### Claim C1 -/

/-- One call of a single-id `get_ref`/`put` trace (claim C1's setting). -/
inductive RefOp where
  | getRef : RefOp
  | put (n : Nat) : RefOp
deriving DecidableEq, Repr

/-- Run a trace of `get_ref(id)` / `put(id, n)` calls, every allocation
succeeding; `none` means some call hit a fatal `BUG_ON`. -/
def runRefOps (id : Nat) : Table → List RefOp → Option Table
  | t, [] => some t
  | t, RefOp.getRef :: rest =>
    match bf_inode_get_ref t id true with
    | .ok (t', _) => runRefOps id t' rest
    | .error _ => none
  | t, RefOp.put n :: rest =>
    match bf_inode_put t id n true with
    | some (t', _) => runRefOps id t' rest
    | none => none

theorem runRefOps_getRef_cons {t t' : Table} {id : Nat} {e : BfInode}
    (rest : List RefOp) (h : bf_inode_get_ref t id true = .ok (t', e)) :
    runRefOps id t (RefOp.getRef :: rest) = runRefOps id t' rest := by
  simp [runRefOps, h]

theorem runRefOps_put_cons {t t' : Table} {id n : Nat} {b : Bool}
    (rest : List RefOp) (h : bf_inode_put t id n true = some (t', b)) :
    runRefOps id t (RefOp.put n :: rest) = runRefOps id t' rest := by
  simp [runRefOps, h]

/-- Cumulative count of references acquired by a trace. -/
def acquired : List RefOp → Nat
  | [] => 0
  | RefOp.getRef :: r => acquired r + 1
  | RefOp.put _ :: r => acquired r

/-- Cumulative count of references released by a trace. -/
def released : List RefOp → Nat
  | [] => 0
  | RefOp.getRef :: r => released r
  | RefOp.put n :: r => released r + n

/-- Claim C1's side condition: at every point of the trace the cumulative
released count never exceeds the cumulative acquired count. -/
def BalancedTrace (ops : List RefOp) : Prop :=
  ∀ k, k ≤ ops.length →
    released (List.take k ops) ≤ acquired (List.take k ops)

/-- The number of outstanding references stays below `2 ^ 64` at every
point of the trace, so the `uint64_t` counter never wraps. -/
def SmallTrace (ops : List RefOp) : Prop :=
  ∀ k, k ≤ ops.length →
    acquired (List.take k ops) - released (List.take k ops) < U64_SIZE

instance (ops : List RefOp) : Decidable (BalancedTrace ops) :=
  inferInstanceAs (Decidable (∀ k, k ≤ ops.length →
    released (List.take k ops) ≤ acquired (List.take k ops)))

instance (ops : List RefOp) : Decidable (SmallTrace ops) :=
  inferInstanceAs (Decidable (∀ k, k ≤ ops.length →
    acquired (List.take k ops) - released (List.take k ops) < U64_SIZE))

/-- Well-formedness of a single-id trace relative to `d` references already
outstanding: no point releases more than is held, and the held count stays
below `2 ^ 64`. -/
def okFrom (d : Nat) : List RefOp → Prop
  | [] => True
  | RefOp.getRef :: r => d + 1 < U64_SIZE ∧ okFrom (d + 1) r
  | RefOp.put n :: r => n ≤ d ∧ okFrom (d - n) r

/-- The table as it looks mid-trace: one entry for the id when `d`
references are outstanding, no entry when none are. -/
def soloTable (id d : Nat) : Table :=
  if d = 0 then [] else [⟨id, d, false⟩]

theorem lookup_soloTable_pos (id : Nat) {d : Nat} (hd : d ≠ 0) :
    lookup (soloTable id d) id = some ⟨id, d, false⟩ := by
  simp [soloTable, hd, lookup]

theorem getRef_soloTable (id d : Nat) (hlt : d + 1 < U64_SIZE) :
    bf_inode_get_ref (soloTable id d) id true
      = .ok (soloTable id (d + 1), ⟨id, d + 1, false⟩) := by
  by_cases hd : d = 0
  · subst hd
    show bf_inode_get_ref [] id true = _
    rw [getRef_created (show lookup ([] : Table) id = none from rfl)]
    rfl
  · rw [getRef_found (lookup_soloTable_pos id hd)]
    have hmod : (d + 1) % U64_SIZE = d + 1 := Nat.mod_eq_of_lt hlt
    simp [soloTable, hd, updateEntry, bumpRef, hmod]

theorem put_soloTable (id d n : Nat) (hn : n ≤ d) :
    bf_inode_put (soloTable id d) id n true
      = some (soloTable id (d - n), false) := by
  by_cases hd : d = 0
  · subst hd
    have hn0 : n = 0 := Nat.le_zero.1 hn
    subst hn0
    show bf_inode_put [] id 0 true = _
    rw [put_missing_zero (show lookup ([] : Table) id = none from rfl)]
    rfl
  · have hl := lookup_soloTable_pos id hd
    rcases Nat.lt_or_ge n d with hlt | hge
    · rw [put_stays hl hlt]
      have hdn : d - n ≠ 0 := by omega
      simp [soloTable, hd, hdn, updateEntry, dropRefs]
    · have heq : d = n := Nat.le_antisymm (Nat.le_of_lt_succ
        (Nat.lt_succ_of_le hge)) hn
      subst heq
      rw [put_drains hl rfl]
      simp [soloTable, hd, removeKey]

theorem runRefOps_soloTable (id : Nat) (ops : List RefOp) :
    ∀ d, okFrom d ops →
      runRefOps id (soloTable id d) ops
        = some (soloTable id (d + acquired ops - released ops)) := by
  induction ops with
  | nil =>
    intro d _
    simp [runRefOps, acquired, released]
  | cons o r ih =>
    intro d hok
    cases o with
    | getRef =>
      obtain ⟨hlt, hok'⟩ := hok
      rw [runRefOps_getRef_cons r (getRef_soloTable id d hlt), ih (d + 1) hok']
      have harith : d + 1 + acquired r - released r
          = d + acquired (RefOp.getRef :: r) - released (RefOp.getRef :: r) := by
        simp only [acquired, released]
        omega
      rw [harith]
    | put n =>
      obtain ⟨hn, hok'⟩ := hok
      rw [runRefOps_put_cons r (put_soloTable id d n hn), ih (d - n) hok']
      have harith : d - n + acquired r - released r
          = d + acquired (RefOp.put n :: r) - released (RefOp.put n :: r) := by
        simp only [acquired, released]
        omega
      rw [harith]

theorem okFrom_of_take (ops : List RefOp) :
    ∀ d, (∀ k, k ≤ ops.length →
        released (List.take k ops) ≤ d + acquired (List.take k ops)
        ∧ d + acquired (List.take k ops) - released (List.take k ops)
            < U64_SIZE) →
      okFrom d ops := by
  induction ops with
  | nil =>
    intro d _
    trivial
  | cons o r ih =>
    intro d h
    have h1 := h 1 (by simp)
    cases o with
    | getRef =>
      simp only [List.take_succ_cons, List.take_zero, acquired, released] at h1
      refine ⟨by omega, ih (d + 1) fun k hk => ?_⟩
      have hk1 := h (k + 1) (by simpa using Nat.succ_le_succ hk)
      simp only [List.take_succ_cons, acquired, released] at hk1
      exact ⟨by omega, by omega⟩
    | put n =>
      simp only [List.take_succ_cons, List.take_zero, acquired, released] at h1
      have hn : n ≤ d := by omega
      refine ⟨hn, ih (d - n) fun k hk => ?_⟩
      have hk1 := h (k + 1) (by simpa using Nat.succ_le_succ hk)
      simp only [List.take_succ_cons, acquired, released] at hk1
      exact ⟨by omega, by omega⟩

/-- C1 amended: for every single-id trace of `get_ref`/`put` calls in
which, at every point, the released count never exceeds the acquired count
and the outstanding count stays below `2 ^ 64`, the whole trace runs
without a fatal assertion, the entry's `open_count` afterwards equals
acquired − released, and an entry for the id exists afterwards exactly
when that value is positive. -/
theorem refcount_sequence_balance (id : Nat) (ops : List RefOp)
    (h1 : BalancedTrace ops) (h2 : SmallTrace ops) :
    ∃ t', runRefOps id [] ops = some t'
      ∧ (∀ e, lookup t' id = some e →
          e.open_count = acquired ops - released ops)
      ∧ (lookup t' id ≠ none ↔ 0 < acquired ops - released ops) := by
  have hok : okFrom 0 ops := okFrom_of_take ops 0 fun k hk =>
    ⟨by simpa using h1 k hk, by simpa using h2 k hk⟩
  have hrun := runRefOps_soloTable id ops 0 hok
  rw [show (0 : Nat) + acquired ops - released ops
      = acquired ops - released ops from by omega] at hrun
  refine ⟨soloTable id (acquired ops - released ops), by simpa using hrun,
    ?_, ?_⟩
  · intro e he
    by_cases hD : acquired ops - released ops = 0
    · rw [hD] at he
      cases he
    · rw [lookup_soloTable_pos id hD] at he
      cases he
      rfl
  · by_cases hD : acquired ops - released ops = 0
    · simp [hD, soloTable, lookup]
    · rw [lookup_soloTable_pos id hD]
      simp
      omega

theorem acquired_getRefs (j : Nat) :
    acquired (List.replicate j RefOp.getRef) = j := by
  induction j with
  | zero => rfl
  | succ m ih => simp [List.replicate_succ, acquired, ih]

theorem released_getRefs (j : Nat) :
    released (List.replicate j RefOp.getRef) = 0 := by
  induction j with
  | zero => rfl
  | succ m ih => simp [List.replicate_succ, released, ih]

/-- Running `k` `get_ref` calls over a present entry bumps its count `k`
times, each bump wrapping modulo `2 ^ 64`. -/
theorem runRefOps_getRefs (id k : Nat) :
    ∀ c, c < U64_SIZE →
      runRefOps id [⟨id, c, false⟩] (List.replicate k RefOp.getRef)
        = some [⟨id, (c + k) % U64_SIZE, false⟩] := by
  induction k with
  | zero =>
    intro c hc
    simp [runRefOps, Nat.mod_eq_of_lt hc]
  | succ m ih =>
    intro c hc
    rw [List.replicate_succ]
    have hstep : bf_inode_get_ref [⟨id, c, false⟩] id true
        = .ok ([⟨id, (c + 1) % U64_SIZE, false⟩],
               ⟨id, (c + 1) % U64_SIZE, false⟩) := by
      rw [getRef_found
        (show lookup [⟨id, c, false⟩] id = some ⟨id, c, false⟩ by
          simp [lookup])]
      simp [updateEntry, bumpRef]
    rw [runRefOps_getRef_cons _ hstep,
      ih ((c + 1) % U64_SIZE) (Nat.mod_lt _ (by norm_num [U64_SIZE]))]
    have harith : ((c + 1) % U64_SIZE + m) % U64_SIZE
        = (c + (m + 1)) % U64_SIZE := by
      rw [Nat.mod_add_mod]
      congr 1
      omega
    rw [harith]

/-- C1 as stated is false on the `uint64_t` counter: the balanced trace of
`2 ^ 64` `get_ref` calls (released count 0 never exceeds the acquired
count) ends with the entry present but `open_count = 0`, not
acquired − released = `2 ^ 64`, because `++open_count` wraps. -/
theorem refcount_sequence_wraps_cex :
    BalancedTrace (List.replicate U64_SIZE RefOp.getRef)
    ∧ acquired (List.replicate U64_SIZE RefOp.getRef)
        - released (List.replicate U64_SIZE RefOp.getRef) = U64_SIZE
    ∧ runRefOps 0 [] (List.replicate U64_SIZE RefOp.getRef)
        = some [⟨0, 0, false⟩]
    ∧ (0 : Nat) ≠ U64_SIZE := by
  have hM : 0 < U64_SIZE := by norm_num [U64_SIZE]
  refine ⟨?_, ?_, ?_, by norm_num [U64_SIZE]⟩
  · intro k hk
    rw [List.take_replicate, released_getRefs]
    exact Nat.zero_le _
  · rw [acquired_getRefs, released_getRefs]
    exact Nat.sub_zero _
  · have hsplit : List.replicate U64_SIZE RefOp.getRef
        = RefOp.getRef :: List.replicate (U64_SIZE - 1) RefOp.getRef := by
      conv_lhs => rw [← Nat.succ_pred_eq_of_pos hM]
      rw [Nat.succ_eq_add_one, List.replicate_succ]
      rfl
    have hstep : bf_inode_get_ref [] 0 true
        = .ok ([⟨0, 1, false⟩], ⟨0, 1, false⟩) := by
      rw [getRef_created (show lookup ([] : Table) 0 = none from rfl)]
      rfl
    rw [hsplit, runRefOps_getRef_cons _ hstep,
      runRefOps_getRefs 0 (U64_SIZE - 1) 1 (by norm_num [U64_SIZE])]
    have harith : (1 + (U64_SIZE - 1)) % U64_SIZE = 0 := by
      have h1 : 1 + (U64_SIZE - 1) = U64_SIZE := by omega
      rw [h1, Nat.mod_self]
    rw [harith]

/-- Witness: the trace `get_ref, get_ref, put 1` on id 7 satisfies both
side conditions and ends with one outstanding reference. -/
theorem refcount_sequence_balance_witness :
    BalancedTrace [RefOp.getRef, RefOp.getRef, RefOp.put 1]
    ∧ SmallTrace [RefOp.getRef, RefOp.getRef, RefOp.put 1]
    ∧ ∃ t', runRefOps 7 [] [RefOp.getRef, RefOp.getRef, RefOp.put 1]
          = some t'
        ∧ (∀ e, lookup t' 7 = some e →
            e.open_count = acquired [RefOp.getRef, RefOp.getRef, RefOp.put 1]
              - released [RefOp.getRef, RefOp.getRef, RefOp.put 1])
        ∧ (lookup t' 7 ≠ none
            ↔ 0 < acquired [RefOp.getRef, RefOp.getRef, RefOp.put 1]
              - released [RefOp.getRef, RefOp.getRef, RefOp.put 1]) :=
  ⟨by decide, by decide,
   refcount_sequence_balance 7 [RefOp.getRef, RefOp.getRef, RefOp.put 1]
     (by decide) (by decide)⟩

/-! ### Claim C8 -/

/-- Remaining half-steps of each worker thread, by thread index.  A thread
doing `F` iterations of `get_ref(id); put(id, 1)` starts with `2 * F`
half-steps; one with `r` half-steps left next calls `get_ref` when `r` is
even and `put(id, 1)` when `r` is odd. -/
abbrev Threads := List Nat

/-- Let the thread at position `j` perform its next call.  Every operation
of the C module holds the one global mutex for its whole body, so each
call is a single atomic step and an execution of the thread pool is a
sequence of such steps.  A finished thread (or an out-of-range index) does
nothing; `none` is a fatal `BUG_ON` inside `put`. -/
def sysStep (id : Nat) (t : Table) (ths : Threads) (j : Nat) :
    Option (Table × Threads) :=
  if ths.getD j 0 = 0 then some (t, ths)
  else if ths.getD j 0 % 2 = 0 then
    match bf_inode_get_ref t id true with
    | .ok (t', _) => some (t', ths.set j (ths.getD j 0 - 1))
    | .error _ => none
  else
    match bf_inode_put t id 1 true with
    | some (t', _) => some (t', ths.set j (ths.getD j 0 - 1))
    | none => none

/-- Run a whole schedule (interleaving) of thread indices. -/
def runSched (id : Nat) :
    Table → Threads → List Nat → Option (Table × Threads)
  | t, ths, [] => some (t, ths)
  | t, ths, j :: rest =>
    match sysStep id t ths j with
    | some (t', ths') => runSched id t' ths' rest
    | none => none

theorem runSched_cons {id : Nat} {t t' : Table} {ths ths' : Threads}
    {j : Nat} (rest : List Nat) (h : sysStep id t ths j = some (t', ths')) :
    runSched id t ths (j :: rest) = runSched id t' ths' rest := by
  simp [runSched, h]

theorem runSched_cons_none {id : Nat} {t : Table} {ths : Threads} {j : Nat}
    (rest : List Nat) (h : sysStep id t ths j = none) :
    runSched id t ths (j :: rest) = none := by
  simp [runSched, h]

theorem runSched_append (id : Nat) (s₁ s₂ : List Nat) :
    ∀ t ths, runSched id t ths (s₁ ++ s₂)
      = (runSched id t ths s₁).bind fun p => runSched id p.1 p.2 s₂ := by
  induction s₁ with
  | nil =>
    intro t ths
    simp [runSched]
  | cons j r ih =>
    intro t ths
    cases hstep : sysStep id t ths j with
    | some p =>
      rw [List.cons_append, runSched_cons _ hstep, runSched_cons _ hstep, ih]
    | none =>
      rw [List.cons_append, runSched_cons_none _ hstep,
        runSched_cons_none _ hstep]
      rfl

/-- Number of threads currently holding a reference (mid-iteration, i.e.
an odd number of half-steps left). -/
def outstanding (ths : Threads) : Nat :=
  ths.countP (fun r => r % 2 == 1)

theorem outstanding_le_length (ths : Threads) :
    outstanding ths ≤ ths.length :=
  List.countP_le_length _

theorem countP_set_balance (p : Nat → Bool) :
    ∀ (l : List Nat) (j b : Nat), j < l.length →
      (l.set j b).countP p + (if p (l.getD j 0) then 1 else 0)
        = l.countP p + (if p b then 1 else 0) := by
  intro l
  induction l with
  | nil =>
    intro j b h
    simp at h
  | cons x rest ih =>
    intro j b h
    cases j with
    | zero =>
      simp only [List.set_cons_zero, List.getD_cons_zero, List.countP_cons]
      omega
    | succ m =>
      simp only [List.set_cons_succ, List.getD_cons_succ, List.countP_cons]
      have := ih m b (by simpa using h)
      omega

theorem outstanding_set_even {ths : Threads} {j : Nat}
    (hj : j < ths.length) (hpar : ths.getD j 0 % 2 = 0)
    (hb : (ths.getD j 0 - 1) % 2 = 1) :
    outstanding (ths.set j (ths.getD j 0 - 1)) = outstanding ths + 1 := by
  have hbal := countP_set_balance (fun r => r % 2 == 1) ths j
    (ths.getD j 0 - 1) hj
  simp only [hpar, hb] at hbal
  simpa [outstanding] using hbal

theorem outstanding_set_odd {ths : Threads} {j : Nat}
    (hj : j < ths.length) (hpar : ths.getD j 0 % 2 = 1)
    (hb : (ths.getD j 0 - 1) % 2 = 0) :
    outstanding (ths.set j (ths.getD j 0 - 1)) + 1 = outstanding ths := by
  have hbal := countP_set_balance (fun r => r % 2 == 1) ths j
    (ths.getD j 0 - 1) hj
  simp only [hpar, hb] at hbal
  simpa [outstanding] using hbal

/-- Invariant run of any schedule: with fewer than `2 ^ 64` threads the
pool never hits a `BUG_ON`, and at every point the table holds exactly the
id's entry with `open_count` equal to the number of mid-iteration threads
(no lost updates). -/
theorem runSched_soloTable (id : Nat) (sched : List Nat) :
    ∀ ths : Threads, ths.length < U64_SIZE →
      ∃ ths' : Threads,
        runSched id (soloTable id (outstanding ths)) ths sched
          = some (soloTable id (outstanding ths'), ths')
        ∧ ths'.length = ths.length := by
  induction sched with
  | nil =>
    intro ths _
    exact ⟨ths, rfl, rfl⟩
  | cons j rest ih =>
    intro ths hlen
    by_cases hr0 : ths.getD j 0 = 0
    · have hstep : sysStep id (soloTable id (outstanding ths)) ths j
          = some (soloTable id (outstanding ths), ths) := by
        simp only [sysStep]
        rw [if_pos hr0]
      rw [runSched_cons rest hstep]
      exact ih ths hlen
    · have hj : j < ths.length := by
        by_contra hjl
        exact hr0 (List.getD_eq_default _ _ (by omega))
      have hlen' : (ths.set j (ths.getD j 0 - 1)).length < U64_SIZE := by
        rw [List.length_set]
        exact hlen
      by_cases hpar : ths.getD j 0 % 2 = 0
      · have hcount := outstanding_set_even hj hpar (by omega)
        have hd1 : outstanding ths + 1 < U64_SIZE := by
          have hle := outstanding_le_length (ths.set j (ths.getD j 0 - 1))
          rw [hcount, List.length_set] at hle
          omega
        have hstep : sysStep id (soloTable id (outstanding ths)) ths j
            = some (soloTable id (outstanding ths + 1),
                    ths.set j (ths.getD j 0 - 1)) := by
          simp only [sysStep]
          rw [if_neg hr0, if_pos hpar,
            getRef_soloTable id (outstanding ths) hd1]
        rw [runSched_cons rest hstep, ← hcount]
        obtain ⟨ths', hrun, hlen''⟩ :=
          ih (ths.set j (ths.getD j 0 - 1)) hlen'
        exact ⟨ths', hrun, by rw [hlen'', List.length_set]⟩
      · have hcount := outstanding_set_odd hj (by omega) (by omega)
        have hd1 : 1 ≤ outstanding ths := by omega
        have hstep : sysStep id (soloTable id (outstanding ths)) ths j
            = some (soloTable id (outstanding ths - 1),
                    ths.set j (ths.getD j 0 - 1)) := by
          simp only [sysStep]
          rw [if_neg hr0, if_neg hpar,
            put_soloTable id (outstanding ths) 1 hd1]
        rw [runSched_cons rest hstep,
          show outstanding ths - 1 = outstanding (ths.set j (ths.getD j 0 - 1))
            from by omega]
        obtain ⟨ths', hrun, hlen''⟩ :=
          ih (ths.set j (ths.getD j 0 - 1)) hlen'
        exact ⟨ths', hrun, by rw [hlen'', List.length_set]⟩

/-- C8 amended: for every pool of fewer than `2 ^ 64` worker threads, each
performing `get_ref(id)` followed by `put(id, 1)` some number of times,
every interleaving of the lock-serialized calls completes without a fatal
assertion (no lost updates between lookup and counter mutation), and once
a schedule has finished all threads' work no entry for the id remains (its
`open_count` reached 0 on the last `put` and the entry was removed). -/
theorem lock_serialized_threads_drain (id : Nat) (iters : List Nat)
    (sched : List Nat) (hN : iters.length < U64_SIZE) :
    ∃ t' ths', runSched id [] (iters.map (fun f => 2 * f)) sched
        = some (t', ths')
      ∧ ((∀ r ∈ ths', r = 0) → lookup t' id = none) := by
  have h0 : outstanding (iters.map (fun f => 2 * f)) = 0 := by
    simp only [outstanding, List.countP_eq_zero]
    intro a ha
    simp only [List.mem_map] at ha
    obtain ⟨f, _, rfl⟩ := ha
    simp
  have hlen : (iters.map (fun f => 2 * f)).length < U64_SIZE := by
    simpa using hN
  obtain ⟨ths', hrun, _⟩ :=
    runSched_soloTable id sched (iters.map (fun f => 2 * f)) hlen
  rw [h0] at hrun
  refine ⟨soloTable id (outstanding ths'), ths', hrun, fun hall => ?_⟩
  have hz : outstanding ths' = 0 := by
    simp only [outstanding, List.countP_eq_zero]
    intro a ha
    rw [hall a ha]
    decide
  rw [hz]
  rfl

/-- Witness: two threads with one iteration each on id 0, scheduled
0, 0, 1, 1: the run completes and, all work done, no entry remains. -/
theorem lock_serialized_threads_drain_witness :
    List.length [1, 1] < U64_SIZE
    ∧ ∃ t' ths',
        runSched 0 [] (List.map (fun f => 2 * f) [1, 1]) [0, 0, 1, 1]
          = some (t', ths')
        ∧ ((∀ r ∈ ths', r = 0) → lookup t' 0 = none) :=
  ⟨by decide,
   lock_serialized_threads_drain 0 [1, 1] [0, 0, 1, 1] (by decide)⟩

/-- Table shape after `k` initial `get_ref` calls on one id starting from
the empty table: present from the first call on, with the count wrapped
modulo `2 ^ 64`. -/
def stageTable (id k : Nat) : Table :=
  if k = 0 then [] else [⟨id, k % U64_SIZE, false⟩]

theorem getRef_stageTable (id k : Nat) :
    bf_inode_get_ref (stageTable id k) id true
      = .ok (stageTable id (k + 1), ⟨id, (k + 1) % U64_SIZE, false⟩) := by
  by_cases hk : k = 0
  · subst hk
    show bf_inode_get_ref [] id true = _
    rw [getRef_created (show lookup ([] : Table) id = none from rfl)]
    simp [stageTable, one_mod_u64]
  · have hl : lookup (stageTable id k) id
        = some ⟨id, k % U64_SIZE, false⟩ := by
      simp [stageTable, hk, lookup]
    rw [getRef_found hl]
    have hmod : (k % U64_SIZE + 1) % U64_SIZE = (k + 1) % U64_SIZE :=
      Nat.mod_add_mod k U64_SIZE 1
    simp [stageTable, hk, updateEntry, bumpRef, hmod]

theorem set_boundary (k m : Nat) :
    (List.replicate k 1 ++ List.replicate (m + 1) 2).set k 1
      = List.replicate (k + 1) 1 ++ List.replicate m 2 := by
  rw [List.set_append_right _ _ (by simp)]
  rw [show List.replicate (m + 1) 2 = 2 :: List.replicate m 2 from rfl]
  rw [List.length_replicate, Nat.sub_self, List.set_cons_zero]
  rw [List.replicate_succ', List.append_assoc]
  rfl

/-- Phase lemma for the counterexample: from `k` get_refs already done,
letting threads `k, k+1, …, k+m−1` (each with both half-steps pending) all
run their `get_ref` first leaves the counter at `(k + m) % 2 ^ 64`. -/
theorem runSched_getRef_phase (id m : Nat) :
    ∀ k : Nat, runSched id (stageTable id k)
        (List.replicate k 1 ++ List.replicate m 2) (List.range' k m)
      = some (stageTable id (k + m), List.replicate (k + m) 1) := by
  induction m with
  | zero =>
    intro k
    simp [runSched]
  | succ m ih =>
    intro k
    rw [List.range'_succ]
    have hths : (List.replicate k 1 ++ List.replicate (m + 1) 2).getD k 0
        = 2 := by
      rw [List.getD_append_right _ _ _ _ (by simp)]
      simp [List.replicate_succ]
    have h21 : (2 : Nat) - 1 = 1 := rfl
    have hstep : sysStep id (stageTable id k)
        (List.replicate k 1 ++ List.replicate (m + 1) 2) k
        = some (stageTable id (k + 1),
                List.replicate (k + 1) 1 ++ List.replicate m 2) := by
      simp only [sysStep]
      rw [hths, if_neg (by decide), if_pos (by decide),
        getRef_stageTable id k, h21, set_boundary k m]
    rw [runSched_cons _ hstep, ih (k + 1),
      show k + 1 + m = k + (m + 1) from by omega]

/-- C8 as stated is false for `N = 2 ^ 64` threads: if each of `2 ^ 64`
threads does one `get_ref(0); put(0, 1)` iteration and the schedule lets
every thread run its `get_ref` before any `put`, the `uint64_t` counter
wraps to 0, and the first `put` then hits `BUG_ON(open_count <
release_count)` — the process aborts instead of reaching the claimed
final state. -/
theorem threads_wrap_at_u64_cex :
    (List.replicate U64_SIZE 1).length = U64_SIZE
    ∧ runSched 0 [] (List.map (fun f => 2 * f) (List.replicate U64_SIZE 1))
        (List.range U64_SIZE ++ [0]) = none := by
  have hM : 0 < U64_SIZE := by norm_num [U64_SIZE]
  constructor
  · simp
  · have hmap : List.map (fun f => 2 * f) (List.replicate U64_SIZE 1)
        = List.replicate U64_SIZE 2 := by
      rw [List.map_replicate]
    rw [hmap, runSched_append, List.range_eq_range']
    have h0 : runSched 0 [] (List.replicate U64_SIZE 2)
        (List.range' 0 U64_SIZE)
        = some (stageTable 0 U64_SIZE, List.replicate U64_SIZE 1) := by
      have hph := runSched_getRef_phase 0 U64_SIZE 0
      simpa using hph
    rw [h0]
    show runSched 0 (stageTable 0 U64_SIZE) (List.replicate U64_SIZE 1) [0]
      = none
    have hstage : stageTable 0 U64_SIZE = [⟨0, 0, false⟩] := by
      simp [stageTable, Nat.mod_self]
      omega
    rw [hstage]
    have hput : bf_inode_put [⟨0, 0, false⟩] 0 1 true = none :=
      put_under
        (show lookup [⟨0, 0, false⟩] 0 = some ⟨0, 0, false⟩ by simp [lookup])
        (by decide)
    have hg : (List.replicate U64_SIZE 1).getD 0 0 = 1 := by
      have hrep : List.replicate U64_SIZE 1
          = 1 :: List.replicate (U64_SIZE - 1) 1 := by
        conv_lhs => rw [← Nat.succ_pred_eq_of_pos hM]
        rw [Nat.succ_eq_add_one, List.replicate_succ]
        rfl
      rw [hrep, List.getD_cons_zero]
    have hstep : sysStep 0 [⟨0, 0, false⟩] (List.replicate U64_SIZE 1) 0
        = none := by
      simp only [sysStep]
      rw [hg, if_neg (by decide), if_neg (by decide), hput]
    exact runSched_cons_none [] hstep

end BcachefsFuse
